import Mathlib

/-!
Verification of `Python-vs-Cpp` (cpp sources).

Shallow embeddings of:
* `src/cpp/no_ai_practice/words_frequency.cpp` (word-frequency counter),
* `src/cpp/multithreading/example1.cpp` (mutex-guarded counter),
* `src/cpp/Examn_objective/Sendthis/Task1/CsvInOut.cpp` (`CsvClass::FilterData`).

Bytes are modelled as `Nat` (values of C++ `unsigned char`), C++ strings as
`List Nat`, and `double` as `ℚ`.
-/

namespace WordsFrequency

/-- C locale `std::ispunct` on the ASCII range: the four punctuation blocks
`!"#$%&'()*+,-./` (33–47), `:;<=>?@` (58–64), `[\]^_`\x60 (91–96) and
`\x7b|\x7d~` (123–126). -/
def ispunct (c : Nat) : Bool :=
  decide ((33 ≤ c ∧ c ≤ 47) ∨ (58 ≤ c ∧ c ≤ 64) ∨ (91 ≤ c ∧ c ≤ 96) ∨
          (123 ≤ c ∧ c ≤ 126))

/-- C locale `std::tolower`: maps `A`–`Z` (65–90) to `a`–`z` (97–122), identity
elsewhere. -/
def tolower (c : Nat) : Nat :=
  if 65 ≤ c ∧ c ≤ 90 then c + 32 else c

/-- C locale `std::isspace`: space (32) and `\t\n\v\f\r` (9–13); the whitespace
set used by `operator>>` extraction. -/
def isspace (c : Nat) : Bool :=
  decide (c = 32 ∨ (9 ≤ c ∧ c ≤ 13))

/-- Accumulator-based worker for `tokenize`: `acc` holds the reversed current
token. Models the `while (ss >> word)` loop, which skips whitespace and reads
maximal runs of non-whitespace characters. -/
def tokenizeAux : List Nat → List Nat → List (List Nat)
  | [], acc => if acc = [] then [] else [acc.reverse]
  | c :: rest, acc =>
    if isspace c then
      if acc = [] then tokenizeAux rest [] else acc.reverse :: tokenizeAux rest []
    else
      tokenizeAux rest (c :: acc)

/-- The whitespace-separated tokens of a text, in order: the successive values
taken by `word` in `while (ss >> word)`. -/
def tokenize (text : List Nat) : List (List Nat) :=
  tokenizeAux text []

/-- Normalization applied to each token inside `parse`:
`word.erase(remove_if(ispunct))` followed by `transform(tolower)` — strip
punctuation first, then lowercase. -/
def normalize (w : List Nat) : List Nat :=
  (w.filter (fun c => !(ispunct c))).map tolower

/-- One `map[word] += 1` on the map, represented as an association list:
increment the entry for `k` if present, otherwise append `(k, 1)` (the C++
`operator[]` default-constructs the value `0` and then `+= 1` makes it `1`). -/
def bump : List (List Nat × Nat) → List Nat → List (List Nat × Nat)
  | [], k => [(k, 1)]
  | (k', v) :: rest, k =>
    if k' = k then (k', v + 1) :: rest else (k', v) :: bump rest k

/-- `parse(map, text)`: fold every token of `text`, normalized, into the map. -/
def parse (m : List (List Nat × Nat)) (text : List Nat) : List (List Nat × Nat) :=
  (tokenize text).foldl (fun acc w => bump acc (normalize w)) m

/-- Lookup in the association-list map: `some v` when the key is present with
count `v`, `none` when absent (no key in the `unordered_map`). -/
def lookup : List (List Nat × Nat) → List Nat → Option Nat
  | [], _ => none
  | (k, v) :: rest, w => if k = w then some v else lookup rest w

/-- `std::string` `operator<`: strict lexicographic order on the byte lists. -/
def strLt : List Nat → List Nat → Bool
  | [], [] => false
  | [], _ :: _ => true
  | _ :: _, [] => false
  | a :: as, b :: bs => decide (a < b) || (decide (a = b) && strLt as bs)

/-- The `std::sort` comparator of `main`:
`if (a.second != b.second) return a.second > b.second; return a.first < b.first;`
— count descending, then word ascending. -/
def cmpEntry (a b : List Nat × Nat) : Bool :=
  if a.2 ≠ b.2 then decide (a.2 > b.2) else strLt a.1 b.1

/-- The non-strict order induced by the comparator: `a` may precede `b` in the
sorted vector exactly when `cmpEntry b a` is false. -/
def leEntry (a b : List Nat × Nat) : Prop :=
  cmpEntry b a = false

instance : DecidableRel leEntry :=
  fun a b => inferInstanceAs (Decidable (cmpEntry b a = false))

/-- The sorted vector of `main`: the entries of the map arranged into the
unique `cmpEntry`-sorted order (`std::sort` guarantees a sorted permutation,
and `leEntry` is antisymmetric, so the sorted permutation is unique). -/
def sortEntries (l : List (List Nat × Nat)) : List (List Nat × Nat) :=
  l.insertionSort leEntry

/-- The sequence of `(word, count)` pairs printed by `main` for a given file
content: parse from the empty map, then sort. -/
def output (text : List Nat) : List (List Nat × Nat) :=
  sortEntries (parse [] text)

/-- A file handle open on byte content `contents` with read position `pos`. -/
structure FileHandle where
  contents : List Nat
  pos : Nat

/-- `file.seekg(0, std::ios::end)`. -/
def seekEnd (f : FileHandle) : FileHandle :=
  { f with pos := f.contents.length }

/-- `file.seekg(0, std::ios::beg)`. -/
def seekBeg (f : FileHandle) : FileHandle :=
  { f with pos := 0 }

/-- `file.tellg()`. -/
def tellg (f : FileHandle) : Nat :=
  f.pos

/-- `file.read(buf, n)`: the bytes actually read (at most `n`, from the current
position) and the advanced handle. -/
def readBytes (f : FileHandle) (n : Nat) : List Nat × FileHandle :=
  let chunk := (f.contents.drop f.pos).take n
  (chunk, { f with pos := f.pos + chunk.length })

/-- `read_file(path)`. The file system is abstracted to what the open can see:
`none` when the file at the path cannot be opened, `some bytes` otherwise.
On failure it throws `runtime_error("cannot open file")`, modelled as
`Except.error`; on success it seeks to the end, takes `tellg` as the size,
seeks back and reads that many bytes into the returned string. -/
def read_file (file : Option (List Nat)) : Except String (List Nat) :=
  match file with
  | none => .error "cannot open file"
  | some bytes =>
    let f := FileHandle.mk bytes 0
    let f1 := seekEnd f
    let size := tellg f1
    let f2 := seekBeg f1
    let data := (readBytes f2 size).1
    .ok data

/-- The whole program `main` up to printing: read the file, parse, sort. The
only `Except.error` is the one thrown by `read_file`; `parse` and the sort are
total. -/
def runProgram (file : Option (List Nat)) : Except String (List (List Nat × Nat)) :=
  (read_file file).map output

end WordsFrequency

namespace Multithreading

/-- A global state of `example1.cpp`: the shared counter `myAmount`, the mutex
`m` (`none` when unlocked, `some t` when held by thread `t`), and the program
counter of each of the two threads `t1` (thread `false`) and `t2` (thread
`true`). `pc = 0`: about to `m.lock()`; `1`: about to `++myAmount`; `2`: about
to `m.unlock()`; `3`: finished (`addMoney` returned, so the thread can be
joined). -/
structure Config where
  myAmount : Nat
  owner : Option Bool
  pc0 : Nat
  pc1 : Nat

/-- One interleaving step: some thread executes its next instruction of
`addMoney`. `m.lock()` blocks until the mutex is free and acquires it;
`++myAmount` increments the shared counter; `m.unlock()` releases the mutex. -/
inductive Step : Config → Config → Prop
  | lock0 (amt pc1) : Step ⟨amt, none, 0, pc1⟩ ⟨amt, some false, 1, pc1⟩
  | inc0 (amt ow pc1) : Step ⟨amt, ow, 1, pc1⟩ ⟨amt + 1, ow, 2, pc1⟩
  | unlock0 (amt ow pc1) : Step ⟨amt, ow, 2, pc1⟩ ⟨amt, none, 3, pc1⟩
  | lock1 (amt pc0) : Step ⟨amt, none, pc0, 0⟩ ⟨amt, some true, pc0, 1⟩
  | inc1 (amt ow pc0) : Step ⟨amt, ow, pc0, 1⟩ ⟨amt + 1, ow, pc0, 2⟩
  | unlock1 (amt ow pc0) : Step ⟨amt, ow, pc0, 2⟩ ⟨amt, none, pc0, 3⟩

/-- The initial state of `main`: `myAmount = 0`, mutex free, both threads at
the start of `addMoney`. -/
def init : Config := ⟨0, none, 0, 0⟩

/-- The states reachable in some interleaving of the two threads. -/
inductive Reach : Config → Prop
  | refl : Reach init
  | step {c c'} : Reach c → Step c c' → Reach c'

/-- How much a thread at program counter `pc` has contributed to `myAmount`:
`1` once it is past its increment, `0` before. -/
def contrib (pc : Nat) : Nat := if 2 ≤ pc then 1 else 0

end Multithreading

namespace CsvInOut

/-- The `Array` typedef of `CsvInOut.hpp`:
`std::vector<std::vector<double>>`, with `double` idealized as `ℚ`. -/
abbrev Array2 := List (List ℚ)

/-- `a[i][j]` (out-of-range access defaults to `0`; `FilterData` only ever
indexes inside the array). -/
def at2 (a : Array2) (i j : Nat) : ℚ := (a.getD i []).getD j 0

/-- `a[i][j] = v` (no-op when out of range). -/
def set2 (a : Array2) (i j : Nat) (v : ℚ) : Array2 :=
  a.set i ((a.getD i []).set j v)

/-- The index pairs `(m, n)` of the sliding window around `(i, j)`:
`m` from `MinM = max(i-1, 0)` to `MaxM = min(i+2, size)` exclusive, `n` from
`MinN = max(j-1, 0)` to `MaxN = min(j+2, rowsize)` exclusive, exactly as the
four ternary expressions in `FilterData` compute them. -/
def windowIdx (a : Array2) (i j : Nat) : List (Nat × Nat) :=
  let maxM := if i + 2 < a.length then i + 2 else a.length
  let minM := i - 1
  let maxN := if j + 2 < (a.getD i []).length then j + 2 else (a.getD i []).length
  let minN := j - 1
  (List.range' minM (maxM - minM)).flatMap
    (fun m => (List.range' minN (maxN - minN)).map (fun n => (m, n)))

/-- The inner `for (k = e+1; ...)` loop of the selection sort: the index of the
smallest element of `w` at positions `e, e+1, ..., w.size()-1`. -/
def findMinIdx (w : List ℚ) (e : Nat) : Nat :=
  (List.range' (e + 1) (w.length - (e + 1))).foldl
    (fun acc k => if w.getD k 0 < w.getD acc 0 then k else acc) e

/-- One pass of the selection sort: find the minimum from `e` on and swap it
into position `e` (via `temp`, exactly as the code does). -/
def selStep (w : List ℚ) (e : Nat) : List ℚ :=
  let m := findMinIdx w e
  let we := w.getD e 0
  let wm := w.getD m 0
  (w.set e wm).set m we

/-- The outer `for (e = 0; e <= mid; ...)` loop: selection-sort the first
`mid + 1` positions of the window. -/
def selectSortPrefix (w : List ℚ) (mid : Nat) : List ℚ :=
  (List.range (mid + 1)).foldl selStep w

/-- `MedValue` as `FilterData` computes it: partially sort the window up to
`mid = (size+1)/2`; take `Window[mid]` when the size is odd, otherwise the
mean of `Window[mid-1]` and `Window[mid]`. -/
def medianOf (window : List ℚ) : ℚ :=
  let mid := (window.length + 1) / 2
  let sorted := selectSortPrefix window mid
  if sorted.length % 2 ≠ 0 then sorted.getD mid 0
  else (sorted.getD (mid - 1) 0 + sorted.getD mid 0) / 2

/-- The body of the general loop of `FilterData` at cell `p = (i, j)`: collect
the window around `(i, j)` from the current array, stack the indexes of its
zero cells (`ZStack`), compute the median of the window values, and, when the
stack is non-empty, overwrite each stacked cell with the median. -/
def filterStep (cur : Array2) (p : Nat × Nat) : Array2 :=
  let idxs := windowIdx cur p.1 p.2
  let zstack := idxs.filter (fun q => decide (at2 cur q.1 q.2 = 0))
  let window := idxs.map (fun q => at2 cur q.1 q.2)
  let med := medianOf window
  if zstack = [] then cur
  else zstack.foldl (fun a q => set2 a q.1 q.2 med) cur

/-- `CsvClass::FilterData`: start from a copy `FData` of `Data` and run the
general loop over all cells in row-major order. The loop bounds are read from
the evolving `FData`, but cell assignment never changes any row length, so
they coincide with the bounds of the input array. -/
def FilterData (d : Array2) : Array2 :=
  let idxs := (List.range d.length).flatMap
    (fun i => (List.range (d.getD i []).length).map (fun j => (i, j)))
  idxs.foldl filterStep d

end CsvInOut

namespace WordsFrequency

theorem lookup_bump (m : List (List Nat × Nat)) (k w : List Nat) :
    lookup (bump m k) w =
      if k = w then some ((lookup m w).getD 0 + 1) else lookup m w := by
  induction m with
  | nil =>
    by_cases h : k = w <;> simp [bump, lookup, h]
  | cons e rest ih =>
    obtain ⟨k', v⟩ := e
    by_cases h1 : k' = k
    · subst h1
      by_cases h2 : k' = w <;> simp [bump, lookup, h2, ih]
    · by_cases h2 : k' = w
      · subst h2
        have : ¬ k = k' := fun h => h1 h.symm
        simp [bump, lookup, h1, this]
      · simp [bump, lookup, h1, h2, ih]

theorem lookup_foldl (ts : List (List Nat)) :
    ∀ (m : List (List Nat × Nat)) (w : List Nat),
      lookup (ts.foldl (fun acc t => bump acc (normalize t)) m) w =
        match lookup m w with
        | some v => some (v + ts.countP (fun t => decide (normalize t = w)))
        | none =>
          if ts.countP (fun t => decide (normalize t = w)) = 0 then none
          else some (ts.countP (fun t => decide (normalize t = w))) := by
  induction ts with
  | nil =>
    intro m w
    cases h : lookup m w <;> simp [h, List.countP_nil]
  | cons t ts ih =>
    intro m w
    have step : (t :: ts).foldl (fun acc t => bump acc (normalize t)) m =
        ts.foldl (fun acc t => bump acc (normalize t)) (bump m (normalize t)) := rfl
    rw [step, ih, List.countP_cons]
    by_cases h : normalize t = w
    · subst h
      rw [lookup_bump]
      cases hm : lookup m (normalize t) <;> simp <;> omega
    · have hd : (decide (normalize t = w)) = false := by simp [h]
      rw [lookup_bump, if_neg h, hd]
      cases hm : lookup m w <;> simp

end WordsFrequency

namespace WordsFrequency

theorem strLt_irrefl : ∀ s : List Nat, strLt s s = false := by
  intro s
  induction s with
  | nil => rfl
  | cons a as ih => simp [strLt, ih]

theorem strLt_trans :
    ∀ s t u : List Nat, strLt s t = true → strLt t u = true → strLt s u = true := by
  intro s
  induction s with
  | nil =>
    intro t u h1 h2
    cases t with
    | nil => exact h2
    | cons b bs =>
      cases u with
      | nil => simp [strLt] at h2
      | cons c cs => rfl
  | cons a as ih =>
    intro t u h1 h2
    cases t with
    | nil => simp [strLt] at h1
    | cons b bs =>
      cases u with
      | nil => simp [strLt] at h2
      | cons c cs =>
        simp only [strLt, Bool.or_eq_true, Bool.and_eq_true, decide_eq_true_eq] at h1 h2 ⊢
        rcases h1 with h1 | ⟨hab, h1⟩
        · rcases h2 with h2 | ⟨hbc, h2⟩
          · exact Or.inl (h1.trans h2)
          · exact Or.inl (hbc ▸ h1)
        · rcases h2 with h2 | ⟨hbc, h2⟩
          · exact Or.inl (hab ▸ h2)
          · exact Or.inr ⟨hab.trans hbc, ih bs cs h1 h2⟩

theorem strLt_trichotomy :
    ∀ s t : List Nat, strLt s t = true ∨ s = t ∨ strLt t s = true := by
  intro s
  induction s with
  | nil =>
    intro t
    cases t with
    | nil => exact Or.inr (Or.inl rfl)
    | cons b bs => exact Or.inl rfl
  | cons a as ih =>
    intro t
    cases t with
    | nil => exact Or.inr (Or.inr rfl)
    | cons b bs =>
      rcases Nat.lt_trichotomy a b with h | h | h
      · exact Or.inl (by simp [strLt, h])
      · rcases ih bs with h2 | h2 | h2
        · exact Or.inl (by simp [strLt, h, h2])
        · exact Or.inr (Or.inl (by rw [h, h2]))
        · exact Or.inr (Or.inr (by simp [strLt, h.symm, h2]))
      · exact Or.inr (Or.inr (by simp [strLt, h]))

theorem strLt_asymm (s t : List Nat) (h1 : strLt s t = true) (h2 : strLt t s = true) :
    False := by
  have := strLt_trans s t s h1 h2
  rw [strLt_irrefl] at this
  exact Bool.false_ne_true this

theorem cmpEntry_true_iff (a b : List Nat × Nat) :
    cmpEntry a b = true ↔ (b.2 < a.2 ∨ (a.2 = b.2 ∧ strLt a.1 b.1 = true)) := by
  unfold cmpEntry
  by_cases h : a.2 = b.2 <;> simp [h]

theorem cmpEntry_false_iff (a b : List Nat × Nat) :
    cmpEntry a b = false ↔ (a.2 < b.2 ∨ (a.2 = b.2 ∧ strLt a.1 b.1 = false)) := by
  rw [← Bool.not_eq_true, cmpEntry_true_iff]
  constructor
  · intro h
    rcases Nat.lt_trichotomy a.2 b.2 with hc | hc | hc
    · exact Or.inl hc
    · refine Or.inr ⟨hc, ?_⟩
      cases hs : strLt a.1 b.1
      · rfl
      · exact absurd (Or.inr ⟨hc, hs⟩) h
    · exact absurd (Or.inl hc) h
  · rintro (hc | ⟨hc, hs⟩) h
    · rcases h with h | ⟨h, _⟩ <;> omega
    · rcases h with h | ⟨_, h⟩
      · omega
      · rw [hs] at h
        exact Bool.false_ne_true h

theorem strLt_false_of_true (s t : List Nat) (h : strLt s t = true) :
    strLt t s = false := by
  cases hts : strLt t s
  · rfl
  · exact (strLt_asymm s t h hts).elim

theorem leEntry_iff (a b : List Nat × Nat) :
    leEntry a b ↔ (b.2 < a.2 ∨ (b.2 = a.2 ∧ strLt b.1 a.1 = false)) := by
  unfold leEntry
  exact cmpEntry_false_iff b a

instance : IsTotal (List Nat × Nat) leEntry := by
  constructor
  intro a b
  rw [leEntry_iff, leEntry_iff]
  rcases Nat.lt_trichotomy a.2 b.2 with hc | hc | hc
  · exact Or.inr (Or.inl hc)
  · rcases strLt_trichotomy a.1 b.1 with hs | hs | hs
    · exact Or.inl (Or.inr ⟨hc.symm, strLt_false_of_true _ _ hs⟩)
    · refine Or.inl (Or.inr ⟨hc.symm, ?_⟩)
      rw [← hs]
      exact strLt_irrefl _
    · exact Or.inr (Or.inr ⟨hc, strLt_false_of_true _ _ hs⟩)
  · exact Or.inl (Or.inl hc)

instance : IsTrans (List Nat × Nat) leEntry := by
  constructor
  intro a b c h1 h2
  rw [leEntry_iff] at h1 h2 ⊢
  rcases h1 with h1 | ⟨h1, hs1⟩
  · rcases h2 with h2 | ⟨h2, _⟩ <;> exact Or.inl (by omega)
  · rcases h2 with h2 | ⟨h2, hs2⟩
    · exact Or.inl (by omega)
    · refine Or.inr ⟨by omega, ?_⟩
      cases hca : strLt c.1 a.1
      · rfl
      · exfalso
        rcases strLt_trichotomy c.1 b.1 with h | h | h
        · simp [h] at hs2
        · rw [h] at hca
          simp [hca] at hs1
        · have := strLt_trans _ _ _ h hca
          simp [this] at hs1

instance : IsAntisymm (List Nat × Nat) leEntry := by
  constructor
  intro a b h1 h2
  rw [leEntry_iff] at h1 h2
  have hc : a.2 = b.2 := by
    rcases h1 with h1 | ⟨h1, _⟩ <;> rcases h2 with h2 | ⟨h2, _⟩ <;> omega
  have hs1 : strLt b.1 a.1 = false := by
    rcases h1 with h1 | ⟨_, hs⟩
    · omega
    · exact hs
  have hs2 : strLt a.1 b.1 = false := by
    rcases h2 with h2 | ⟨_, hs⟩
    · omega
    · exact hs
  have hw : a.1 = b.1 := by
    rcases strLt_trichotomy a.1 b.1 with h | h | h
    · simp [h] at hs2
    · exact h
    · simp [h] at hs1
  exact Prod.ext hw hc

theorem leEntry_counts (a b : List Nat × Nat) (h : leEntry a b) : b.2 ≤ a.2 := by
  unfold leEntry at h
  rw [cmpEntry_false_iff] at h
  rcases h with h | ⟨h, _⟩ <;> omega

end WordsFrequency

namespace WordsFrequency

theorem ispunct_tolower (c : Nat) : ispunct (tolower c) = ispunct c := by
  unfold ispunct tolower
  by_cases h : 65 ≤ c ∧ c ≤ 90
  · rw [if_pos h, decide_eq_decide]
    omega
  · rw [if_neg h]

theorem normalize_lower_strip (w : List Nat) :
    normalize w = (w.map tolower).filter (fun c => !(ispunct c)) := by
  unfold normalize
  induction w with
  | nil => rfl
  | cons c cs ih =>
    simp only [List.filter_cons, List.map_cons, ispunct_tolower]
    cases h : ispunct c <;> simp [h, ih]

theorem tokenizeAux_mem_ne_nil :
    ∀ (s acc tok : List Nat), tok ∈ tokenizeAux s acc → tok ≠ [] := by
  intro s
  induction s with
  | nil =>
    intro acc tok h
    unfold tokenizeAux at h
    by_cases ha : acc = []
    · simp [ha] at h
    · rw [if_neg ha] at h
      rw [List.mem_singleton] at h
      subst h
      simp only [ne_eq, List.reverse_eq_nil_iff]
      exact ha
  | cons c rest ih =>
    intro acc tok h
    unfold tokenizeAux at h
    by_cases hc : isspace c
    · rw [if_pos hc] at h
      by_cases ha : acc = []
      · rw [if_pos ha] at h
        exact ih [] tok h
      · rw [if_neg ha] at h
        rcases List.mem_cons.1 h with h | h
        · subst h
          simp only [ne_eq, List.reverse_eq_nil_iff]
          exact ha
        · exact ih [] tok h
    · rw [if_neg hc] at h
      exact ih (c :: acc) tok h

theorem tokenize_ne_nil (text tok : List Nat) (h : tok ∈ tokenize text) : tok ≠ [] :=
  tokenizeAux_mem_ne_nil text [] tok h

/-- Claim C1: for every input text, `parse` starting from the empty map
produces a map that assigns to each normalized word exactly the number of
whitespace-separated tokens whose normalization equals that word, and
contains no other keys (lookup is `none` when no token normalizes to `w`). -/
theorem parse_counts_normalized_tokens (text w : List Nat) :
    lookup (parse [] text) w =
      if (tokenize text).countP (fun t => decide (normalize t = w)) = 0 then none
      else some ((tokenize text).countP (fun t => decide (normalize t = w))) := by
  unfold parse
  rw [lookup_foldl]
  rfl

/-- Claim C2: the printed list is sorted by frequency — every entry's count is
greater than or equal to the count of the entry that follows it. -/
theorem output_sorted_by_count (text : List Nat) :
    (output text).Chain' (fun a b => b.2 ≤ a.2) := by
  have hs : (output text).Sorted leEntry :=
    List.sorted_insertionSort leEntry (parse [] text)
  have hp : (output text).Pairwise (fun a b => b.2 ≤ a.2) :=
    hs.imp (fun h => leEntry_counts _ _ h)
  exact hp.chain'

/-- Claim C3: the counter's only failure is the file-open check — `read_file`
(and hence the whole program) produces the error `"cannot open file"` exactly
when the file cannot be opened; every other operation is total. -/
theorem only_error_is_file_open (file : Option (List Nat)) :
    (∀ e, read_file file = .error e ↔ (file = none ∧ e = "cannot open file")) ∧
    (∀ e, runProgram file = .error e ↔ (file = none ∧ e = "cannot open file")) := by
  cases file <;> constructor <;> intro e <;>
    simp [read_file, runProgram, Except.map, eq_comm]

/-- Claim C4: the key under which a token is counted is the token with
punctuation stripped and the rest lowercased — strip-then-lower as written in
the code, which coincides with lower-then-strip for these character classes. -/
theorem token_key_strip_then_lower (text t : List Nat) (_h : t ∈ tokenize text) :
    normalize t = (t.filter (fun c => !(ispunct c))).map tolower ∧
    normalize t = (t.map tolower).filter (fun c => !(ispunct c)) :=
  ⟨rfl, normalize_lower_strip t⟩

/-- Claim C5: when the file opens, `read_file` returns the complete contents:
a string of length the file's size whose bytes are exactly the file's bytes. -/
theorem read_file_returns_full_contents (bytes : List Nat) :
    ∃ data, read_file (some bytes) = Except.ok data ∧
      data.length = bytes.length ∧ data = bytes := by
  refine ⟨bytes, ?_, rfl, rfl⟩
  simp [read_file, readBytes, seekBeg, seekEnd, tellg]

/-- Claim C7: the printed output is a deterministic function of the file
contents — the comparator induces an antisymmetric total order, so any sorted
permutation of the map's entries (whatever iteration order the hash map
produced) equals the canonical output. -/
theorem output_deterministic (text : List Nat) (l : List (List Nat × Nat))
    (hperm : l.Perm (parse [] text)) (hsort : l.Sorted leEntry) :
    l = output text := by
  have h2 : (output text).Sorted leEntry :=
    List.sorted_insertionSort leEntry (parse [] text)
  have hp2 : (output text).Perm (parse [] text) :=
    List.perm_insertionSort leEntry (parse [] text)
  exact List.eq_of_perm_of_sorted (hperm.trans hp2.symm) hsort h2

/-- Witness for C7 at the text `"b a b"`. -/
theorem output_deterministic_witness :
    ([([98], 2), ([97], 1)] : List (List Nat × Nat)).Perm (parse [] [98, 32, 97, 32, 98]) ∧
    ([([98], 2), ([97], 1)] : List (List Nat × Nat)).Sorted leEntry ∧
    ([([98], 2), ([97], 1)] : List (List Nat × Nat)) = output [98, 32, 97, 32, 98] :=
  ⟨by decide, by decide, output_deterministic _ _ (by decide) (by decide)⟩

/-- Claim C8: a token consisting entirely of punctuation is counted under the
empty-string key, and for some inputs the printed output contains an entry
whose word is empty. -/
theorem punct_only_token_empty_key :
    (∀ text tok, tok ∈ tokenize text → (∀ c ∈ tok, ispunct c = true) →
      ∃ n, lookup (parse [] text) [] = some n ∧ 1 ≤ n) ∧
    (∃ text n, ([], n) ∈ output text) := by
  constructor
  · intro text tok hmem hall
    have hnorm : normalize tok = [] := by
      unfold normalize
      have hf : tok.filter (fun c => !(ispunct c)) = [] := by
        rw [List.filter_eq_nil_iff]
        intro a ha
        simp [hall a ha]
      rw [hf]
      rfl
    have hcount : 0 < (tokenize text).countP (fun t => decide (normalize t = [])) := by
      rw [List.countP_pos_iff]
      exact ⟨tok, hmem, by simp [hnorm]⟩
    refine ⟨(tokenize text).countP (fun t => decide (normalize t = [])), ?_, hcount⟩
    unfold parse
    rw [lookup_foldl]
    have hz : ¬ (tokenize text).countP (fun t => decide (normalize t = [])) = 0 := by
      omega
    simp [lookup, hz]
  · exact ⟨[33], 1, by decide⟩

/-- Witness for C8 at the text `"!"`. -/
theorem punct_only_token_empty_key_witness :
    ∃ n, lookup (parse [] [33]) [] = some n ∧ 1 ≤ n :=
  punct_only_token_empty_key.1 [33] [33] (by decide) (by decide)

/-- Witness for C4 at the text `"Hi!"`. -/
theorem token_key_strip_then_lower_witness :
    normalize [72, 105, 33] =
      (([72, 105, 33].filter (fun c => !(ispunct c))).map tolower) ∧
    normalize [72, 105, 33] =
      (([72, 105, 33].map tolower).filter (fun c => !(ispunct c))) :=
  token_key_strip_then_lower [72, 105, 33] [72, 105, 33] (by decide)

end WordsFrequency

namespace Multithreading

theorem reach_inv (c : Config) (h : Reach c) :
    c.myAmount = contrib c.pc0 + contrib c.pc1 ∧
    (c.pc0 = 1 ∨ c.pc0 = 2 → c.owner = some false) ∧
    (c.pc1 = 1 ∨ c.pc1 = 2 → c.owner = some true) := by
  induction h with
  | refl => simp [init, contrib]
  | step hr hs ih =>
    obtain ⟨h1, h2, h3⟩ := ih
    cases hs with
    | lock0 amt pc1 =>
      refine ⟨?_, fun _ => rfl, fun hpc => ?_⟩
      · have e0 : contrib 0 = 0 := rfl
        have e1 : contrib 1 = 0 := rfl
        have h1' : amt = contrib 0 + contrib pc1 := h1
        show amt = contrib 1 + contrib pc1
        omega
      · have := h3 hpc
        simp at this
    | inc0 amt ow pc1 =>
      refine ⟨?_, fun _ => h2 (Or.inl rfl), h3⟩
      have e1 : contrib 1 = 0 := rfl
      have e2 : contrib 2 = 1 := rfl
      have h1' : amt = contrib 1 + contrib pc1 := h1
      show amt + 1 = contrib 2 + contrib pc1
      omega
    | unlock0 amt ow pc1 =>
      refine ⟨?_, by simp, fun hpc => ?_⟩
      · have e2 : contrib 2 = 1 := rfl
        have e3 : contrib 3 = 1 := rfl
        have h1' : amt = contrib 2 + contrib pc1 := h1
        show amt = contrib 3 + contrib pc1
        omega
      · have ha := h3 hpc
        have hb := h2 (Or.inr rfl)
        rw [hb] at ha
        simp at ha
    | lock1 amt pc0 =>
      refine ⟨?_, fun hpc => ?_, fun _ => rfl⟩
      · have e0 : contrib 0 = 0 := rfl
        have e1 : contrib 1 = 0 := rfl
        have h1' : amt = contrib pc0 + contrib 0 := h1
        show amt = contrib pc0 + contrib 1
        omega
      · have := h2 hpc
        simp at this
    | inc1 amt ow pc0 =>
      refine ⟨?_, h2, fun _ => h3 (Or.inl rfl)⟩
      have e1 : contrib 1 = 0 := rfl
      have e2 : contrib 2 = 1 := rfl
      have h1' : amt = contrib pc0 + contrib 1 := h1
      show amt + 1 = contrib pc0 + contrib 2
      omega
    | unlock1 amt ow pc0 =>
      refine ⟨?_, fun hpc => ?_, by simp⟩
      · have e2 : contrib 2 = 1 := rfl
        have e3 : contrib 3 = 1 := rfl
        have h1' : amt = contrib pc0 + contrib 2 := h1
        show amt = contrib pc0 + contrib 3
        omega
      · have ha := h2 hpc
        have hb := h3 (Or.inr rfl)
        rw [hb] at ha
        simp at ha

/-- Claim C6: in the two-thread example, each thread's increment happens while
it holds the mutex (a thread between its `lock` and `unlock` is the mutex
owner), and in every interleaving the counter equals `2` once both threads
have finished and can be joined. -/
theorem counter_is_two_after_join (c : Config) (h : Reach c) :
    (c.pc0 = 1 ∨ c.pc0 = 2 → c.owner = some false) ∧
    (c.pc1 = 1 ∨ c.pc1 = 2 → c.owner = some true) ∧
    (c.pc0 = 3 ∧ c.pc1 = 3 → c.myAmount = 2) := by
  obtain ⟨h1, h2, h3⟩ := reach_inv c h
  refine ⟨h2, h3, fun hp => ?_⟩
  rw [hp.1, hp.2] at h1
  simpa [contrib] using h1

theorem reach_final : Reach ⟨2, none, 3, 3⟩ :=
  Reach.step (Reach.step (Reach.step (Reach.step (Reach.step (Reach.step Reach.refl
    (Step.lock0 0 0)) (Step.inc0 0 (some false) 0)) (Step.unlock0 1 (some false) 0))
    (Step.lock1 1 3)) (Step.inc1 1 (some true) 3)) (Step.unlock1 2 (some true) 3)

/-- Witness for C6 at the sequential interleaving `t1` then `t2`. -/
theorem counter_is_two_after_join_witness :
    (Config.mk 2 none 3 3).myAmount = 2 :=
  (counter_is_two_after_join ⟨2, none, 3, 3⟩ reach_final).2.2 ⟨rfl, rfl⟩

end Multithreading

namespace CsvInOut

theorem getD_set2 (a : Array2) (i j k : Nat) (v : ℚ) :
    (set2 a i j v).getD k [] =
      if k = i then (a.getD i []).set j v else a.getD k [] := by
  unfold set2
  by_cases hk : k = i
  · subst hk
    rw [if_pos rfl]
    by_cases hlen : k < a.length
    · simp [List.getD_eq_getElem?_getD, List.getElem?_set_self hlen]
    · have hle : a.length ≤ k := Nat.le_of_not_lt hlen
      have ha : a.getD k [] = [] := by
        simp [List.getD_eq_getElem?_getD, List.getElem?_eq_none hle]
      rw [List.set_eq_of_length_le (by simpa using hle), ha]
      simp
  · rw [if_neg hk]
    simp [List.getD_eq_getElem?_getD,
      List.getElem?_set_ne (fun hh => hk hh.symm)]

theorem length_set2 (a : Array2) (i j : Nat) (v : ℚ) :
    (set2 a i j v).length = a.length := by
  simp [set2]

theorem rowlen_set2 (a : Array2) (i j k : Nat) (v : ℚ) :
    ((set2 a i j v).getD k []).length = (a.getD k []).length := by
  rw [getD_set2]
  by_cases hk : k = i
  · subst hk
    simp
  · rw [if_neg hk]

theorem at2_set2_ne (a : Array2) (i j i' j' : Nat) (v : ℚ)
    (h : ¬ (i' = i ∧ j' = j)) :
    at2 (set2 a i' j' v) i j = at2 a i j := by
  unfold at2
  rw [getD_set2]
  by_cases hi : i = i'
  · rw [if_pos hi]
    have hj : ¬ j' = j := fun hj => h ⟨hi.symm, hj⟩
    subst hi
    simp [List.getD_eq_getElem?_getD, List.getElem?_set_ne hj]
  · rw [if_neg hi]

theorem at2_foldl_set2_ne (med : ℚ) (l : List (Nat × Nat)) :
    ∀ (a : Array2) (i j : Nat), (∀ q ∈ l, ¬ (q.1 = i ∧ q.2 = j)) →
      at2 (l.foldl (fun acc q => set2 acc q.1 q.2 med) a) i j = at2 a i j := by
  induction l with
  | nil => intro a i j _; rfl
  | cons q l ih =>
    intro a i j h
    have step : ((q :: l).foldl (fun acc q => set2 acc q.1 q.2 med) a) =
        l.foldl (fun acc q => set2 acc q.1 q.2 med) (set2 a q.1 q.2 med) := rfl
    rw [step, ih (set2 a q.1 q.2 med) i j (fun r hr => h r (List.mem_cons_of_mem q hr))]
    exact at2_set2_ne a i j q.1 q.2 med (h q (List.mem_cons_self q l))

theorem length_foldl_set2 (med : ℚ) (l : List (Nat × Nat)) :
    ∀ a : Array2, (l.foldl (fun acc q => set2 acc q.1 q.2 med) a).length = a.length := by
  induction l with
  | nil => intro a; rfl
  | cons q l ih =>
    intro a
    rw [show ((q :: l).foldl (fun acc q => set2 acc q.1 q.2 med) a) =
        l.foldl (fun acc q => set2 acc q.1 q.2 med) (set2 a q.1 q.2 med) from rfl,
      ih, length_set2]

theorem rowlen_foldl_set2 (med : ℚ) (l : List (Nat × Nat)) :
    ∀ (a : Array2) (k : Nat),
      ((l.foldl (fun acc q => set2 acc q.1 q.2 med) a).getD k []).length =
        (a.getD k []).length := by
  induction l with
  | nil => intro a k; rfl
  | cons q l ih =>
    intro a k
    rw [show ((q :: l).foldl (fun acc q => set2 acc q.1 q.2 med) a) =
        l.foldl (fun acc q => set2 acc q.1 q.2 med) (set2 a q.1 q.2 med) from rfl,
      ih, rowlen_set2]

theorem length_filterStep (cur : Array2) (p : Nat × Nat) :
    (filterStep cur p).length = cur.length := by
  simp only [filterStep]
  split
  · rfl
  · exact length_foldl_set2 _ _ cur

theorem rowlen_filterStep (cur : Array2) (p : Nat × Nat) (k : Nat) :
    ((filterStep cur p).getD k []).length = (cur.getD k []).length := by
  simp only [filterStep]
  split
  · rfl
  · exact rowlen_foldl_set2 _ _ cur k

theorem at2_filterStep_of_ne_zero (cur : Array2) (p : Nat × Nat) (i j : Nat)
    (hcur : at2 cur i j ≠ 0) :
    at2 (filterStep cur p) i j = at2 cur i j := by
  simp only [filterStep]
  split
  · rfl
  · apply at2_foldl_set2_ne
    intro q hq hij
    have hz := (List.mem_filter.1 hq).2
    rw [decide_eq_true_eq] at hz
    rw [hij.1, hij.2] at hz
    exact hcur hz

theorem filter_loop_inv (d : Array2) (idxs : List (Nat × Nat)) :
    ∀ cur : Array2, cur.length = d.length →
      (∀ k, (cur.getD k []).length = (d.getD k []).length) →
      (∀ i j, at2 d i j ≠ 0 → at2 cur i j = at2 d i j) →
      ((idxs.foldl filterStep cur).length = d.length ∧
       (∀ k, ((idxs.foldl filterStep cur).getD k []).length = (d.getD k []).length) ∧
       (∀ i j, at2 d i j ≠ 0 → at2 (idxs.foldl filterStep cur) i j = at2 d i j)) := by
  induction idxs with
  | nil => intro cur h1 h2 h3; exact ⟨h1, h2, h3⟩
  | cons p ps ih =>
    intro cur h1 h2 h3
    rw [show ((p :: ps).foldl filterStep cur) = ps.foldl filterStep (filterStep cur p)
        from rfl]
    refine ih (filterStep cur p) ?_ ?_ ?_
    · rw [length_filterStep, h1]
    · intro k
      rw [rowlen_filterStep, h2]
    · intro i j hd
      have hc : at2 cur i j = at2 d i j := h3 i j hd
      rw [at2_filterStep_of_ne_zero cur p i j (by rw [hc]; exact hd), hc]

/-- Claim C9: `CsvClass::FilterData` leaves every nonzero cell unchanged — the
returned array has the dimensions of `Data`, and at every position where
`Data` is nonzero the returned array holds the same value; only zero cells
are ever overwritten. -/
theorem FilterData_frame (d : Array2) :
    (FilterData d).length = d.length ∧
    (∀ k, ((FilterData d).getD k []).length = (d.getD k []).length) ∧
    (∀ i j, at2 d i j ≠ 0 → at2 (FilterData d) i j = at2 d i j) := by
  unfold FilterData
  exact filter_loop_inv d _ d rfl (fun k => rfl) (fun i j _ => rfl)

/-- Witness for C9 at a concrete array with no zero cell in the way. -/
theorem FilterData_frame_witness :
    at2 [[1, 2], [3, 4]] 0 0 ≠ 0 ∧
    at2 (FilterData [[1, 2], [3, 4]]) 0 0 = at2 [[1, 2], [3, 4]] 0 0 :=
  ⟨by decide, (FilterData_frame [[1, 2], [3, 4]]).2.2 0 0 (by decide)⟩

end CsvInOut
